import Mathlib

/-!
Verification development for the LegalMates document-filling assistant
(`app.py`).  The Python source operates on `.docx` documents through
`python-docx`: a document is a list of body paragraphs plus tables
(rows of cells, each cell a list of paragraphs), and every paragraph is a
list of formatting runs whose concatenated texts give `paragraph.text`.
We embed that document shape directly, model Python strings as `List Char`,
and translate the placeholder scanner, the run-scoped substitution, the
live-preview transform and the Streamlit session state machine
(answer handler with its error rollback) as executable Lean functions.
-/

/-- Python strings are modelled as lists of characters. -/
abbrev Str := List Char

/-- Coerce a Lean string literal into the `Str` model. -/
def str (s : String) : Str := s.data

/-- Predicate `isPrefixL pat s`: `pat` is a prefix of `s` (used for Python `in` and
`str.replace`). -/
def isPrefixL : Str → Str → Bool
  | [], _ => true
  | _ :: _, [] => false
  | a :: as, b :: bs => a = b && isPrefixL as bs

/-- Python `pat in s` substring test (`containsSub s pat`). -/
def containsSub : Str → Str → Bool
  | [], pat => isPrefixL pat []
  | s@(_ :: rest), pat => isPrefixL pat s || containsSub rest pat

/-- Python `s.replace("", rep)`: `rep` is inserted before every character
and at the end. -/
def replEmpty (rep : Str) : Str → Str
  | [] => rep
  | c :: rest => rep ++ c :: replEmpty rep rest

/-- Worker for Python `s.replace(pat, rep)` with nonempty `pat`:
left-to-right, non-overlapping replacement of every occurrence.  The `Nat`
argument counts characters of a just-matched pattern still to be skipped. -/
def replAux (pat rep : Str) : Nat → Str → Str
  | _, [] => []
  | n + 1, _ :: rest => replAux pat rep n rest
  | 0, c :: rest =>
    if isPrefixL pat (c :: rest) then
      rep ++ replAux pat rep (pat.length - 1) rest
    else
      c :: replAux pat rep 0 rest

/-- Python `s.replace(pat, rep)`. -/
def pyReplace (s pat rep : Str) : Str :=
  if pat = [] then replEmpty rep s else replAux pat rep 0 s

/-- Python `key in dict` over an insertion-ordered association list. -/
def dictMem (m : List (Str × Str)) (k : Str) : Bool :=
  m.any (fun kv => kv.1 = k)

/-- Python `dict[k] = v`: update in place when the key is present,
append otherwise. -/
def dictInsert (m : List (Str × Str)) (k v : Str) : List (Str × Str) :=
  if dictMem m k then m.map (fun kv => if kv.1 = k then (k, v) else kv)
  else m ++ [(k, v)]

/-- Python `dict.get(k, "")` over an association list. -/
def ctxGet (m : List (Str × Str)) (k : Str) : Str :=
  match m.find? (fun kv => kv.1 = k) with
  | some kv => kv.2
  | none => []

/-- First-occurrence index of `x` (Python `list.index`, total: returns the
length when absent). -/
def firstIdx (x : Str) : List Str → Nat
  | [] => 0
  | y :: ys => if y = x then 0 else firstIdx x ys + 1

/-- Python `sorted(list(set(l)), key=l.index)` from the source: the distinct
elements of `l` ordered by first appearance, i.e. dedup keeping first
occurrences.  `seen` accumulates the keys already emitted. -/
def dedupFirstAux (seen : List Str) : List Str → List Str
  | [] => []
  | x :: xs =>
    if x ∈ seen then dedupFirstAux seen xs
    else x :: dedupFirstAux (x :: seen) xs

/-- Dedup keeping first occurrences, in order of first appearance. -/
def dedupFirst (l : List Str) : List Str := dedupFirstAux [] l

/-! ### The placeholder regex

`placeholder_regex = r"\{{1,2}.*?\}{1,2}|\[.*?\]|<.*?>|%.*?%|__.*?__|\$[a-zA-Z0-9_]+"`

`re.findall` scans left to right; at each position the alternatives are
tried in order; `.*?` is non-greedy (shortest match, never across a
newline); `\{{1,2}` and `\}{1,2}` are greedy (two braces preferred over
one). -/

/-- The `[a-zA-Z0-9_]` character class. -/
def isWordChar (c : Char) : Bool :=
  ('a' ≤ c && c ≤ 'z') || ('A' ≤ c && c ≤ 'Z') || ('0' ≤ c && c ≤ '9') || c = '_'

/-- Match `.*?\}{1,2}`: consume the shortest (newline-free) prefix up to a
closing brace, preferring a double close over a single one.  Returns the
consumed characters (content plus braces) and the rest. -/
def dotClose : Str → Option (Str × Str)
  | [] => none
  | c :: rest =>
    if c = '}' then
      match rest with
      | c2 :: rest2 => if c2 = '}' then some (['}', '}'], rest2) else some (['}'], rest)
      | [] => some (['}'], rest)
    else if c = '\n' then none
    else
      match dotClose rest with
      | some (m, r) => some (c :: m, r)
      | none => none

/-- Match `.*?X` for a single closing character `X` (used for `]`, `>`, `%`). -/
def dotCloseCh (cl : Char) : Str → Option (Str × Str)
  | [] => none
  | c :: rest =>
    if c = cl then some ([c], rest)
    else if c = '\n' then none
    else
      match dotCloseCh cl rest with
      | some (m, r) => some (c :: m, r)
      | none => none

/-- Match `.*?__` (shortest newline-free prefix up to a double underscore). -/
def dotCloseUU : Str → Option (Str × Str)
  | [] => none
  | c :: rest =>
    if c = '_' then
      match rest with
      | c2 :: rest2 =>
        if c2 = '_' then some (['_', '_'], rest2)
        else
          match dotCloseUU rest with
          | some (m, r) => some (c :: m, r)
          | none => none
      | [] => none
    else if c = '\n' then none
    else
      match dotCloseUU rest with
      | some (m, r) => some (c :: m, r)
      | none => none

/-- Alternative `\{{1,2}.*?\}{1,2}`: greedy open (two braces preferred),
backtracking to a single open brace if the double-open attempt fails. -/
def matchCurly : Str → Option (Str × Str)
  | [] => none
  | c :: rest =>
    if c = '{' then
      match rest with
      | c2 :: rest2 =>
        if c2 = '{' then
          match dotClose rest2 with
          | some (m, r) => some ('{' :: '{' :: m, r)
          | none =>
            match dotClose ('{' :: rest2) with
            | some (m, r) => some ('{' :: m, r)
            | none => none
        else
          match dotClose rest with
          | some (m, r) => some ('{' :: m, r)
          | none => none
      | [] => none
    else none

/-- Alternatives `\[.*?\]`, `<.*?>`, `%.*?%`: an opening character `op`
followed by the shortest content up to closing character `cl`. -/
def matchDelim (op cl : Char) : Str → Option (Str × Str)
  | [] => none
  | c :: rest =>
    if c = op then
      match dotCloseCh cl rest with
      | some (m, r) => some (c :: m, r)
      | none => none
    else none

/-- Alternative `__.*?__`. -/
def matchUnder : Str → Option (Str × Str)
  | [] => none
  | c :: rest =>
    if c = '_' then
      match rest with
      | c2 :: rest2 =>
        if c2 = '_' then
          match dotCloseUU rest2 with
          | some (m, r) => some ('_' :: '_' :: m, r)
          | none => none
        else none
      | [] => none
    else none

/-- Longest run of word characters at the front. -/
def takeWordChars : Str → Str × Str
  | [] => ([], [])
  | c :: rest =>
    if isWordChar c then
      match takeWordChars rest with
      | (w, r) => (c :: w, r)
    else ([], c :: rest)

/-- Alternative `\$[a-zA-Z0-9_]+`. -/
def matchDollar : Str → Option (Str × Str)
  | [] => none
  | c :: rest =>
    if c = '$' then
      match takeWordChars rest with
      | (w, r) => if w = [] then none else some ('$' :: w, r)
    else none

/-- Try the six alternatives of the placeholder regex, in order, at the
current position. -/
def matchToken (s : Str) : Option (Str × Str) :=
  match matchCurly s with
  | some x => some x
  | none =>
    match matchDelim '[' ']' s with
    | some x => some x
    | none =>
      match matchDelim '<' '>' s with
      | some x => some x
      | none =>
        match matchDelim '%' '%' s with
        | some x => some x
        | none =>
          match matchUnder s with
          | some x => some x
          | none => matchDollar s

/-- Python `re.findall(placeholder_regex, s)`: scan left to right, collecting
matches; on failure advance one character.  Every match consumes at least
one character, so input length is sufficient fuel. -/
def findallAux : Nat → Str → List Str
  | 0, _ => []
  | _ + 1, [] => []
  | fuel + 1, c :: rest =>
    match matchToken (c :: rest) with
    | some (m, r) => m :: findallAux fuel r
    | none => findallAux fuel rest

/-- All regex matches in `s`, in order. -/
def findTokens (s : Str) : List Str := findallAux s.length s

/-! ### The document model (python-docx shape) -/

/-- A formatting run: the smallest uniformly formatted span (`run.text`). -/
abbrev Run := Str

/-- A paragraph is a list of runs; `paragraph.text` is their concatenation. -/
abbrev Para := List Run

/-- A table cell holds paragraphs. -/
abbrev Cell := List Para

/-- A table row holds cells. -/
abbrev Row := List Cell

/-- A table holds rows. -/
abbrev Table := List Row

/-- The parsed `.docx` document: body paragraphs plus tables.  The opaque
byte buffer of the source is modelled by this already-parsed shape
(`docx.Document(io.BytesIO(file_bytes))` is the identity here, and
`doc.save` the identity back). -/
structure Doc where
  body : List Para
  tables : List Table
deriving DecidableEq

/-- Accessor `paragraph.text`: concatenation of the run texts. -/
def paraText (p : Para) : Str := p.flatten

/-- All paragraphs in document reading order: body paragraphs first, then
tables (row-major, cell by cell, each cell's paragraphs in order) —
exactly the loops of `extract_text_and_placeholders`. -/
def allParas (d : Doc) : List Para :=
  d.body ++ d.tables.flatMap (fun t => t.flatMap (fun row => row.flatMap (fun cell => cell)))

/-- The concatenation of the per-paragraph regex matches, in reading
order (the `placeholders` list of the source before dedup). -/
def rawTokens (d : Doc) : List Str :=
  (allParas d).flatMap (fun p => findTokens (paraText p))

/-- Python `"\n".join(full_text)`. -/
def fullTextStr (d : Doc) : Str :=
  List.intercalate ['\n'] ((allParas d).map paraText)

/-- Context-map insertion: only the first paragraph containing a token is
stored (`if ph not in placeholder_context_map`). -/
def ctxInsert (m : List (Str × Str)) (k v : Str) : List (Str × Str) :=
  if dictMem m k then m else m ++ [(k, v)]

/-- The `placeholder_context_map` built by `process_paragraphs`. -/
def contextMap (d : Doc) : List (Str × Str) :=
  (allParas d).foldl
    (fun m p => (findTokens (paraText p)).foldl (fun m' ph => ctxInsert m' ph (paraText p)) m)
    []

/-- Scanner `extract_text_and_placeholders`: full flattened text, ordered unique
placeholder list (`sorted(list(set(placeholders)), key=placeholders.index)`,
i.e. first-appearance order), and the context map. -/
def extract_text_and_placeholders (d : Doc) : Str × List Str × List (Str × Str) :=
  (fullTextStr d, dedupFirst (rawTokens d), contextMap d)

/-! ### Run-scoped substitution (`replace_placeholders_in_doc`) -/

/-- One `key, value` pass over a paragraph: if the key occurs in the
paragraph's (current) full text, every run whose own text contains the key
has all its occurrences replaced.  A key spanning two runs but contained
in no single run leaves every run unchanged. -/
def replaceOnce (key value : Str) (p : Para) : Para :=
  if containsSub (paraText p) key then
    p.map (fun r => if containsSub r key then pyReplace r key value else r)
  else p

/-- The per-paragraph loop `for key, value in replacements.items(): ...`:
sequential over the value map in insertion order, each key seeing the run
texts already rewritten by earlier keys. -/
def replaceInPara (reps : List (Str × Str)) (p : Para) : Para :=
  reps.foldl (fun q kv => replaceOnce kv.1 kv.2 q) p

/-- Materializer `replace_placeholders_in_doc`: the same pass over body paragraphs and
every table-cell paragraph; parses a fresh copy and serializes new bytes. -/
def replace_placeholders_in_doc (d : Doc) (reps : List (Str × Str)) : Doc :=
  { body := d.body.map (replaceInPara reps)
    tables := d.tables.map (fun t => t.map (fun row => row.map (fun cell => cell.map (replaceInPara reps)))) }

/-! ### Live preview transform -/

/-- Rendering `f"**{val}**"`: bold rendering of a filled value. -/
def boldVal (v : Str) : Str := str "**" ++ v ++ str "**"

/-- Rendering `f"_{ph}_"`: italic rendering of an unfilled token. -/
def italTok (ph : Str) : Str := ['_'] ++ ph ++ ['_']

/-- The Live Preview text transform: replace each filled token with its
bold value, then each unfilled token with an italicised copy of itself. -/
def previewTransform (filled : List (Str × Str)) (phs : List Str) (t : Str) : Str :=
  let t1 := filled.foldl (fun acc kv => pyReplace acc kv.1 (boldVal kv.2)) t
  phs.foldl (fun acc ph => if dictMem filled ph then acc else pyReplace acc ph (italTok ph)) t1

/-! ### Session state machine -/

/-- A role-tagged chat message. -/
structure Msg where
  role : Str
  content : Str
deriving DecidableEq

/-- The Streamlit session state relevant to filling. -/
structure Session where
  messages : List Msg
  placeholders : List Str
  placeholder_context_map : List (Str × Str)
  filled_values : List (Str × Str)
  current_placeholder_index : Nat
  original_doc_bytes : Option Doc
  original_text : Str
  api_history : List Msg
deriving DecidableEq

/-- An apostrophe character (kept out of string literals). -/
def apos : Char := Char.ofNat 39

/-- The next-question instruction
`f"Great, I've saved that. The next placeholder is '{next_ph}'. The context is: \"{context}\". Please ask me the question for this one."`. -/
def nextPrompt (ph ctx : Str) : Str :=
  str "Great, I" ++ [apos] ++ str "ve saved that. The next placeholder is " ++ [apos] ++ ph
    ++ [apos] ++ str ". The context is: \"" ++ ctx
    ++ str "\". Please ask me the question for this one."

/-- The all-done instruction sent after the last placeholder. -/
def finalPrompt : Str :=
  str "That was the last placeholder! Please provide a brief, friendly message letting me know I"
    ++ [apos] ++ str "m all done and can review the document on the right."

/-- The instruction built by the answer handler once the cursor has been
advanced to `nextIdx`. -/
def instrAt (ps : List Str) (cm : List (Str × Str)) (nextIdx : Nat) : Str :=
  if nextIdx < ps.length then
    nextPrompt (ps.getD nextIdx []) (ctxGet cm (ps.getD nextIdx []))
  else finalPrompt

/-- The chat answer handler (`if prompt := st.chat_input(...)`).  `outcome`
is the external collaborator's reply (`some reply`) or a raised API error
(`none`).  On success: store the value, advance the cursor, append the
instruction and the reply to `api_history`, append the reply to
`messages`.  On failure the exception is raised inside
`get_ai_response` after the instruction was appended, and the `except`
branch runs `current_placeholder_index -= 1`; the stored value is NOT
removed.  An out-of-range cursor raises `IndexError` before any mutation
except the user message, and the same `except` branch decrements. -/
def submitAnswer (s : Session) (prompt : Str) (outcome : Option Str) : Session :=
  let s0 := { s with messages := s.messages ++ [Msg.mk (str "user") prompt] }
  if h : s0.current_placeholder_index < s0.placeholders.length then
    let current_ph := s0.placeholders.get ⟨s0.current_placeholder_index, h⟩
    let s1 := { s0 with
      filled_values := dictInsert s0.filled_values current_ph prompt
      current_placeholder_index := s0.current_placeholder_index + 1 }
    let ai_prompt := instrAt s1.placeholders s1.placeholder_context_map s1.current_placeholder_index
    let s2 := { s1 with api_history := s1.api_history ++ [Msg.mk (str "user") ai_prompt] }
    match outcome with
    | some reply =>
      { s2 with
        api_history := s2.api_history ++ [Msg.mk (str "assistant") reply]
        messages := s2.messages ++ [Msg.mk (str "assistant") reply] }
    | none => { s2 with current_placeholder_index := s2.current_placeholder_index - 1 }
  else { s0 with current_placeholder_index := s0.current_placeholder_index - 1 }

/-- Iterate successful answers (`submitAnswer` with a reply each time). -/
def runAnswers (s : Session) : List (Str × Str) → Session
  | [] => s
  | (a, r) :: rest => runAnswers (submitAnswer s a (some r)) rest

/-- The slot asked about next, `placeholders[current_placeholder_index]`. -/
def currentPlaceholder (s : Session) : Str :=
  s.placeholders.getD s.current_placeholder_index []

/-- The visible filled count, `len(st.session_state.filled_values)`. -/
def filledCount (s : Session) : Nat := s.filled_values.length

/-- The progress readout `(filled, total)` shown by the progress bar. -/
def progress (s : Session) : Nat × Nat := (filledCount s, s.placeholders.length)

/-- Completion test `all_filled = len(filled_values) == len(placeholders)`. -/
def all_filled (s : Session) : Bool := filledCount s == s.placeholders.length

/-- Counter `countMsg m l`: number of occurrences of message `m` in transcript `l`. -/
def countMsg (m : Msg) : List Msg → Nat
  | [] => 0
  | x :: xs => (if x = m then 1 else 0) + countMsg m xs

/-- The download section: compute
`replace_placeholders_in_doc(original_doc_bytes, filled_values)` without
touching any session field. -/
def materializeStep (s : Session) : Option Doc × Session :=
  match s.original_doc_bytes with
  | some d => (some (replace_placeholders_in_doc d s.filled_values), s)
  | none => (none, s)

/-- Characters that cannot start or close any regex alternative and are
not a newline. -/
def cleanChar (c : Char) : Bool :=
  !(c = '{' || c = '}' || c = '[' || c = ']' || c = '<' || c = '>' || c = '%'
    || c = '_' || c = '$' || c = '\n')

/-- A string of clean characters contains no placeholder material. -/
def cleanStr (s : Str) : Bool := s.all cleanChar

/-- Predicate `occursAt s pat j`: an occurrence of `pat` starts at index `j` of `s`. -/
def occursAt (s pat : Str) (j : Nat) : Bool := isPrefixL pat (s.drop j)

/-- Simultaneous substitution, modelled from the claim's words: a single
left-to-right scan of the original text; wherever some key of the value
map starts (first key in insertion order wins), emit its value and resume
after the occurrence; values are never rescanned.  This is the comparison
point for the sequential fold the source actually performs. -/
def simulAux (reps : List (Str × Str)) : Nat → Str → Str
  | _, [] => []
  | n + 1, _ :: rest => simulAux reps n rest
  | 0, c :: rest =>
    match reps.find? (fun kv => !kv.1.isEmpty && isPrefixL kv.1 (c :: rest)) with
    | some kv => kv.2 ++ simulAux reps (kv.1.length - 1) rest
    | none => c :: simulAux reps 0 rest

/-- Simultaneous substitution of all keys of the value map. -/
def simulReplace (reps : List (Str × Str)) (s : Str) : Str := simulAux reps 0 s

/-- A small concrete session used as a test vehicle: two placeholders
just scanned, nothing filled yet, cursor at the first slot. -/
def sampleSession : Session :=
  { messages := []
    placeholders := [str "{A}", str "{B}"]
    placeholder_context_map := []
    filled_values := []
    current_placeholder_index := 0
    original_doc_bytes := some (Doc.mk [[str "x ", str "{A}", str " y ", str "{B}"]] [])
    original_text := str "x {A} y {B}"
    api_history := [] }

/-! ## Lemmas about dedup (first-appearance order) -/

theorem mem_dedupFirstAux (l : List Str) : ∀ (seen : List Str) (x : Str),
    x ∈ dedupFirstAux seen l ↔ x ∈ l ∧ x ∉ seen := by
  induction l with
  | nil => intro seen x; simp [dedupFirstAux]
  | cons y ys ih =>
    intro seen x
    by_cases hy : y ∈ seen
    · simp only [dedupFirstAux, if_pos hy, ih]
      constructor
      · rintro ⟨hx, hns⟩; exact ⟨List.mem_cons_of_mem _ hx, hns⟩
      · rintro ⟨hx, hns⟩
        rcases List.mem_cons.mp hx with h | h
        · exact absurd (h ▸ hy) hns
        · exact ⟨h, hns⟩
    · rw [dedupFirstAux, if_neg hy]
      constructor
      · intro hx
        rcases List.mem_cons.mp hx with rfl | hx'
        · exact ⟨List.mem_cons_self _ _, hy⟩
        · obtain ⟨h1, h2⟩ := (ih (y :: seen) x).mp hx'
          exact ⟨List.mem_cons_of_mem _ h1, fun hc => h2 (List.mem_cons_of_mem _ hc)⟩
      · rintro ⟨hx, hns⟩
        rcases List.mem_cons.mp hx with rfl | hx'
        · exact List.mem_cons_self _ _
        · by_cases hxy : x = y
          · exact hxy ▸ List.mem_cons_self _ _
          · refine List.mem_cons_of_mem _ ((ih (y :: seen) x).mpr ⟨hx', ?_⟩)
            intro hc
            rcases List.mem_cons.mp hc with h | h
            · exact hxy h
            · exact hns h

theorem nodup_dedupFirstAux (l : List Str) : ∀ seen : List Str,
    (dedupFirstAux seen l).Nodup := by
  induction l with
  | nil => intro seen; simp [dedupFirstAux]
  | cons y ys ih =>
    intro seen
    by_cases hy : y ∈ seen
    · simpa [dedupFirstAux, if_pos hy] using ih seen
    · rw [dedupFirstAux, if_neg hy]
      refine List.Nodup.cons ?_ (ih (y :: seen))
      intro hc
      exact ((mem_dedupFirstAux ys (y :: seen) y).mp hc).2 (List.mem_cons_self _ _)

theorem firstIdx_cons_ne (x y : Str) (ys : List Str) (h : y ≠ x) :
    firstIdx x (y :: ys) = firstIdx x ys + 1 := by
  simp [firstIdx, h]

theorem pairwise_dedupFirstAux (l : List Str) : ∀ seen : List Str,
    (dedupFirstAux seen l).Pairwise (fun a b => firstIdx a l < firstIdx b l) := by
  induction l with
  | nil => intro seen; simp [dedupFirstAux]
  | cons y ys ih =>
    intro seen
    by_cases hy : y ∈ seen
    · rw [dedupFirstAux, if_pos hy]
      refine ((ih seen).imp_of_mem ?_)
      intro a b ha hb hab
      have ha' := (mem_dedupFirstAux ys seen a).mp ha
      have hb' := (mem_dedupFirstAux ys seen b).mp hb
      have hay : y ≠ a := fun h => ha'.2 (h ▸ hy)
      have hby : y ≠ b := fun h => hb'.2 (h ▸ hy)
      rw [firstIdx_cons_ne _ _ _ hay, firstIdx_cons_ne _ _ _ hby]
      omega
    · rw [dedupFirstAux, if_neg hy]
      refine List.Pairwise.cons ?_ ?_
      · intro b hb
        have hb' := (mem_dedupFirstAux ys (y :: seen) b).mp hb
        have hby : y ≠ b := fun h => hb'.2 (h ▸ List.mem_cons_self _ _)
        rw [firstIdx_cons_ne _ _ _ hby]
        simp [firstIdx]
      · refine ((ih (y :: seen)).imp_of_mem ?_)
        intro a b ha hb hab
        have ha' := (mem_dedupFirstAux ys (y :: seen) a).mp ha
        have hb' := (mem_dedupFirstAux ys (y :: seen) b).mp hb
        have hay : y ≠ a := fun h => ha'.2 (h ▸ List.mem_cons_self _ _)
        have hby : y ≠ b := fun h => hb'.2 (h ▸ List.mem_cons_self _ _)
        rw [firstIdx_cons_ne _ _ _ hay, firstIdx_cons_ne _ _ _ hby]
        omega

/-! ## Lemmas about substring search and `str.replace` -/

theorem isPrefixL_append_self (p : Str) : ∀ x : Str, isPrefixL p (p ++ x) = true := by
  induction p with
  | nil => intro x; rfl
  | cons c cs ih => intro x; simp [isPrefixL, ih x]

theorem containsSub_nil_pat (s : Str) : containsSub s [] = true := by
  cases s with
  | nil => rfl
  | cons c rest => simp [containsSub, isPrefixL]

theorem containsSub_of_front (s pat : Str) (h : isPrefixL pat s = true) :
    containsSub s pat = true := by
  cases s with
  | nil => exact h
  | cons c rest => rw [containsSub, h, Bool.true_or]

theorem containsSub_mid (pat : Str) : ∀ a b : Str,
    containsSub (a ++ pat ++ b) pat = true := by
  intro a
  induction a with
  | nil =>
    intro b
    rw [List.nil_append]
    exact containsSub_of_front _ _ (isPrefixL_append_self _ _)
  | cons c a' ih =>
    intro b
    show (isPrefixL pat ((c :: a') ++ pat ++ b) || containsSub (a' ++ pat ++ b) pat) = true
    rw [ih b, Bool.or_true]

theorem containsSub_false_elim {pat : Str} {c : Char} {rest : Str}
    (h : containsSub (c :: rest) pat = false) :
    isPrefixL pat (c :: rest) = false ∧ containsSub rest pat = false := by
  rw [containsSub] at h
  exact Bool.or_eq_false_iff.mp h

theorem pyReplace_not_contains (s pat rep : Str) (h : containsSub s pat = false) :
    pyReplace s pat rep = s := by
  cases hp : pat with
  | nil => rw [hp] at h; rw [containsSub_nil_pat] at h; cases h
  | cons ph pt =>
    rw [← hp]
    have hpne : pat ≠ [] := by rw [hp]; intro hc; cases hc
    rw [pyReplace, if_neg hpne]
    induction s with
    | nil => rfl
    | cons c rest ih =>
      obtain ⟨h1, h2⟩ := containsSub_false_elim h
      rw [replAux, if_neg (by rw [h1]; intro hc; cases hc)]
      rw [ih h2]

theorem replAux_skip (pat rep : Str) : ∀ (l : Str) (n : Nat),
    replAux pat rep n l = replAux pat rep 0 (l.drop n) := by
  intro l
  induction l with
  | nil => intro n; cases n <;> rfl
  | cons c rest ih =>
    intro n
    cases n with
    | zero => rfl
    | succ m => rw [replAux, List.drop_succ_cons, ih m]

theorem replAux_mid (pat rep b : Str) (hp : pat ≠ []) : ∀ a : Str,
    (∀ j, j < a.length → occursAt (a ++ pat ++ b) pat j = false) →
    replAux pat rep 0 (a ++ pat ++ b) = a ++ rep ++ replAux pat rep 0 b := by
  intro a
  induction a with
  | nil =>
    intro _
    cases pat with
    | nil => exact absurd rfl hp
    | cons ph pt =>
      simp only [List.nil_append, List.cons_append]
      rw [replAux, if_pos (by rw [← List.cons_append]; exact isPrefixL_append_self _ _)]
      have hlen : (ph :: pt).length - 1 = pt.length := by simp
      rw [hlen, replAux_skip, List.drop_left]
  | cons c a' ih =>
    intro hocc
    have h0 : isPrefixL pat (c :: (a' ++ pat ++ b)) = false := by
      have := hocc 0 (by simp)
      simpa [occursAt] using this
    simp only [List.cons_append]
    rw [replAux, if_neg (by rw [h0]; intro hc; cases hc)]
    rw [ih (fun j hj => by
      have := hocc (j + 1) (by simpa using Nat.succ_lt_succ hj)
      simpa [occursAt] using this)]

theorem map_id_of_mem {α : Type} (f : α → α) : ∀ l : List α,
    (∀ x ∈ l, f x = x) → l.map f = l := by
  intro l
  induction l with
  | nil => intro _; rfl
  | cons x xs ih =>
    intro h
    simp only [List.map_cons, h x (List.mem_cons_self _ _),
      ih (fun y hy => h y (List.mem_cons_of_mem _ hy))]

theorem replaceInPara_single (k v : Str) (p : Para) :
    replaceInPara [(k, v)] p = replaceOnce k v p := rfl

/-! ## Lemmas about the value map and the session machine -/

theorem dictMem_false_iff (m : List (Str × Str)) (k : Str) :
    dictMem m k = false ↔ k ∉ m.map Prod.fst := by
  rw [dictMem]
  induction m with
  | nil => simp
  | cons kv m' ih =>
    simp only [List.any_cons, List.map_cons, List.mem_cons, Bool.or_eq_false_iff,
      decide_eq_false_iff_not, ih]
    constructor
    · rintro ⟨h1, h2⟩ hc
      rcases hc with hc | hc
      · exact h1 hc.symm
      · exact h2 hc
    · intro h
      exact ⟨fun hc => h (Or.inl hc.symm), fun hc => h (Or.inr hc)⟩

theorem dictInsert_fresh (m : List (Str × Str)) (k v : Str)
    (h : dictMem m k = false) : dictInsert m k v = m ++ [(k, v)] := by
  simp [dictInsert, h]

theorem dictMem_dictInsert (m : List (Str × Str)) (k v : Str) :
    dictMem (dictInsert m k v) k = true := by
  cases h : dictMem m k with
  | true =>
    simp only [dictInsert, h, if_true]
    rw [dictMem, List.any_eq_true]
    rw [dictMem, List.any_eq_true] at h
    obtain ⟨kv, hkv, hk⟩ := h
    refine ⟨(k, v), ?_, by simp⟩
    have hf : (fun kv : Str × Str => if kv.1 = k then (k, v) else kv) kv = (k, v) := by
      simp [of_decide_eq_true hk]
    exact List.mem_map.mpr ⟨kv, hkv, hf⟩
  | false =>
    simp only [dictInsert, h, Bool.false_eq_true, if_false]
    rw [dictMem, List.any_eq_true]
    exact ⟨(k, v), List.mem_append_right _ (List.mem_cons_self _ _), by simp⟩

theorem dictInsert_length_mem (m : List (Str × Str)) (k v : Str)
    (h : dictMem m k = true) : (dictInsert m k v).length = m.length := by
  simp [dictInsert, h]

theorem countMsg_append (m : Msg) : ∀ l1 l2 : List Msg,
    countMsg m (l1 ++ l2) = countMsg m l1 + countMsg m l2 := by
  intro l1
  induction l1 with
  | nil => intro l2; simp [countMsg]
  | cons x xs ih =>
    intro l2
    show (if x = m then 1 else 0) + countMsg m (xs ++ l2)
      = ((if x = m then 1 else 0) + countMsg m xs) + countMsg m l2
    rw [ih l2]
    omega

/-- An element never seen before `i` in a duplicate-free list. -/
theorem get_not_mem_take (ps : List Str) (hnd : ps.Nodup) (i : Nat) (h : i < ps.length) :
    ps.get ⟨i, h⟩ ∉ ps.take i := by
  intro hc
  have hsplit : ps.take i ++ ps.drop i = ps := List.take_append_drop i ps
  have hnd' : (ps.take i ++ ps.drop i).Nodup := hsplit.symm ▸ hnd
  have hdisj := (List.nodup_append.mp hnd').2.2
  have hmem : ps.get ⟨i, h⟩ ∈ ps.drop i := by
    rw [List.drop_eq_getElem_cons h]
    exact List.mem_cons_self _ _
  exact hdisj hc hmem

theorem take_succ_of_lt (ps : List Str) (i : Nat) (h : i < ps.length) :
    ps.take (i + 1) = ps.take i ++ [ps.get ⟨i, h⟩] := by
  rw [List.take_succ]
  congr 1
  rw [List.getElem?_eq_getElem h]
  rfl

theorem submitAnswer_ok_fields (s : Session) (a r : Str)
    (h : s.current_placeholder_index < s.placeholders.length) :
    submitAnswer s a (some r) = { s with
      messages := s.messages ++ [Msg.mk (str "user") a] ++ [Msg.mk (str "assistant") r]
      filled_values := dictInsert s.filled_values (s.placeholders.get ⟨s.current_placeholder_index, h⟩) a
      current_placeholder_index := s.current_placeholder_index + 1
      api_history := s.api_history
        ++ [Msg.mk (str "user") (instrAt s.placeholders s.placeholder_context_map (s.current_placeholder_index + 1))]
        ++ [Msg.mk (str "assistant") r] } := by
  rw [submitAnswer]
  rw [dif_pos h]

theorem submitAnswer_fail_fields (s : Session) (a : Str)
    (h : s.current_placeholder_index < s.placeholders.length) :
    submitAnswer s a none = { s with
      messages := s.messages ++ [Msg.mk (str "user") a]
      filled_values := dictInsert s.filled_values (s.placeholders.get ⟨s.current_placeholder_index, h⟩) a
      current_placeholder_index := s.current_placeholder_index
      api_history := s.api_history
        ++ [Msg.mk (str "user") (instrAt s.placeholders s.placeholder_context_map (s.current_placeholder_index + 1))] } := by
  rw [submitAnswer]
  rw [dif_pos h]
  simp

theorem runAnswers_inv : ∀ (ans : List (Str × Str)) (s : Session),
    s.placeholders.Nodup →
    s.current_placeholder_index + ans.length = s.placeholders.length →
    s.filled_values.map Prod.fst = s.placeholders.take s.current_placeholder_index →
    (runAnswers s ans).placeholders = s.placeholders
      ∧ (runAnswers s ans).current_placeholder_index = s.placeholders.length
      ∧ (runAnswers s ans).filled_values.map Prod.fst = s.placeholders := by
  intro ans
  induction ans with
  | nil =>
    intro s _ h2 h3
    have hix : s.current_placeholder_index = s.placeholders.length := by
      simpa using h2
    refine ⟨rfl, hix, ?_⟩
    rw [runAnswers]
    rw [h3, hix, List.take_length]
  | cons ar rest ih =>
    intro s h1 h2 h3
    obtain ⟨a, r⟩ := ar
    have hlt : s.current_placeholder_index < s.placeholders.length := by
      simp only [List.length_cons] at h2
      omega
    have ht := submitAnswer_ok_fields s a r hlt
    have hfresh : dictMem s.filled_values (s.placeholders.get ⟨s.current_placeholder_index, hlt⟩) = false := by
      rw [dictMem_false_iff, h3]
      exact get_not_mem_take s.placeholders h1 _ hlt
    have hstep : runAnswers s ((a, r) :: rest) = runAnswers (submitAnswer s a (some r)) rest := rfl
    rw [hstep, ht]
    have hres := ih { s with
      messages := s.messages ++ [Msg.mk (str "user") a] ++ [Msg.mk (str "assistant") r]
      filled_values := dictInsert s.filled_values (s.placeholders.get ⟨s.current_placeholder_index, hlt⟩) a
      current_placeholder_index := s.current_placeholder_index + 1
      api_history := s.api_history
        ++ [Msg.mk (str "user") (instrAt s.placeholders s.placeholder_context_map (s.current_placeholder_index + 1))]
        ++ [Msg.mk (str "assistant") r] }
      (by simpa using h1)
      (by simp only [List.length_cons] at h2; simpa using (by omega : s.current_placeholder_index + 1 + rest.length = s.placeholders.length))
      (by
        show (dictInsert s.filled_values _ a).map Prod.fst = s.placeholders.take (s.current_placeholder_index + 1)
        rw [dictInsert_fresh _ _ _ hfresh, List.map_append, h3,
          take_succ_of_lt s.placeholders _ hlt]
        rfl)
    simpa using hres

theorem currentPlaceholder_eq_get (s : Session)
    (h : s.current_placeholder_index < s.placeholders.length) :
    currentPlaceholder s = s.placeholders.get ⟨s.current_placeholder_index, h⟩ := by
  rw [currentPlaceholder, List.getD_eq_getElem?_getD, List.getElem?_eq_getElem h]
  rfl

/-! ## Claim C9: N successful answers fill everything -/

/-- C9: starting from `Collecting` with `N` (pairwise distinct, as the
scanner guarantees) placeholders, cursor `0` and an empty value map, `N`
consecutive successful answers leave the cursor at `N`, put an entry for
every placeholder in the value map, make `all_filled` true and make the
progress readout `(N, N)`. -/
theorem c9_fill_monotone (s : Session) (ans : List (Str × Str))
    (h1 : s.placeholders.Nodup)
    (h2 : s.current_placeholder_index = 0)
    (h3 : s.filled_values = [])
    (h4 : ans.length = s.placeholders.length) :
    (runAnswers s ans).current_placeholder_index = s.placeholders.length
      ∧ (∀ ph ∈ s.placeholders, dictMem (runAnswers s ans).filled_values ph = true)
      ∧ progress (runAnswers s ans) = (s.placeholders.length, s.placeholders.length)
      ∧ all_filled (runAnswers s ans) = true := by
  obtain ⟨hps, hix, hkeys⟩ := runAnswers_inv ans s h1 (by omega) (by rw [h3, h2]; rfl)
  have hlen : (runAnswers s ans).filled_values.length = s.placeholders.length := by
    have := congrArg List.length hkeys
    simpa using this
  refine ⟨hix, ?_, ?_, ?_⟩
  · intro ph hph
    cases hd : dictMem (runAnswers s ans).filled_values ph with
    | false => exact absurd (hkeys ▸ (dictMem_false_iff _ ph).mp hd) (fun hc => hc hph)
    | true => rfl
  · rw [progress, filledCount, hlen, hps]
  · rw [all_filled, filledCount, hlen, hps]
    simp

/-- Witness for C9 at a concrete two-placeholder session. -/
theorem c9_fill_monotone_witness :
    (runAnswers sampleSession [(str "Alice", str "ok"), (str "Bob", str "done")]).current_placeholder_index
        = sampleSession.placeholders.length
      ∧ (∀ ph ∈ sampleSession.placeholders,
          dictMem (runAnswers sampleSession [(str "Alice", str "ok"), (str "Bob", str "done")]).filled_values ph = true)
      ∧ progress (runAnswers sampleSession [(str "Alice", str "ok"), (str "Bob", str "done")])
        = (sampleSession.placeholders.length, sampleSession.placeholders.length)
      ∧ all_filled (runAnswers sampleSession [(str "Alice", str "ok"), (str "Bob", str "done")]) = true :=
  c9_fill_monotone sampleSession [(str "Alice", str "ok"), (str "Bob", str "done")]
    (by decide) rfl rfl (by decide)

/-! ## Claim C2: rollback after a failed collaborator call -/

/-- C2 counterexample: on `sampleSession`, record an answer for `{A}` and
let the collaborator call fail.  The cursor is rolled back (the current
placeholder is `{A}` again), but contrary to the claim the value map STILL
contains an entry for `{A}`: the handler only decrements
`current_placeholder_index` and never deletes `filled_values[current_ph]`,
so the filled counter reads 1 of 2 although the cursor is back at slot 0. -/
theorem c2_rollback_counterexample :
    currentPlaceholder (submitAnswer sampleSession (str "Alice") none) = currentPlaceholder sampleSession
      ∧ ¬ (dictMem (submitAnswer sampleSession (str "Alice") none).filled_values
            (currentPlaceholder sampleSession) = false)
      ∧ filledCount (submitAnswer sampleSession (str "Alice") none) = 1
      ∧ (submitAnswer sampleSession (str "Alice") none).current_placeholder_index = 0 := by
  decide

/-- C2 (amended): after `recordAnswer(v)` followed by the failure rollback,
the current placeholder is the same one as before, but the value map
RETAINS an entry for that placeholder (the freshly recorded value), so the
visible filled count (`len(filled_values)`) can exceed the cursor and
overstate completion until the answer is successfully resubmitted. -/
theorem c2_rollback_keeps_value (s : Session) (a : Str)
    (h : s.current_placeholder_index < s.placeholders.length) :
    (submitAnswer s a none).current_placeholder_index = s.current_placeholder_index
      ∧ currentPlaceholder (submitAnswer s a none) = currentPlaceholder s
      ∧ dictMem (submitAnswer s a none).filled_values (currentPlaceholder s) = true
      ∧ filledCount (submitAnswer s a none)
          = (if dictMem s.filled_values (currentPlaceholder s) = true then filledCount s
             else filledCount s + 1) := by
  have hf := submitAnswer_fail_fields s a h
  have hcp := currentPlaceholder_eq_get s h
  refine ⟨by rw [hf], ?_, ?_, ?_⟩
  · rw [currentPlaceholder, hf]
    rfl
  · rw [hf, hcp]
    exact dictMem_dictInsert _ _ _
  · rw [filledCount, hf, hcp]
    cases hmem : dictMem s.filled_values (s.placeholders.get ⟨s.current_placeholder_index, h⟩) with
    | true =>
      rw [if_pos rfl]
      exact dictInsert_length_mem _ _ _ hmem
    | false =>
      rw [if_neg Bool.false_ne_true, dictInsert_fresh _ _ _ hmem]
      simp [filledCount]

/-- Witness for the amended C2 on `sampleSession`. -/
theorem c2_rollback_keeps_value_witness :
    (submitAnswer sampleSession (str "Alice") none).current_placeholder_index
        = sampleSession.current_placeholder_index
      ∧ currentPlaceholder (submitAnswer sampleSession (str "Alice") none)
        = currentPlaceholder sampleSession
      ∧ dictMem (submitAnswer sampleSession (str "Alice") none).filled_values
          (currentPlaceholder sampleSession) = true
      ∧ filledCount (submitAnswer sampleSession (str "Alice") none)
          = (if dictMem sampleSession.filled_values (currentPlaceholder sampleSession) = true
             then filledCount sampleSession else filledCount sampleSession + 1) :=
  c2_rollback_keeps_value sampleSession (str "Alice") (by decide)

/-! ## Claim C5: the instruction is duplicated on retry -/

theorem countMsg_single_self (m : Msg) : countMsg m [m] = 1 := by
  simp [countMsg]

theorem countMsg_single_ne (m x : Msg) (h : x ≠ m) : countMsg m [x] = 0 := by
  simp [countMsg, h]

/-- C5 counterexample: on `sampleSession`, answer `{A}`, let the call fail,
then resubmit the same answer successfully.  The instruction message for
that turn now occurs TWICE in `api_history` (once appended by the failed
attempt, once by the retry), refuting "the transcript contains it at most
once". -/
theorem c5_retry_counterexample :
    ¬ (countMsg
        (Msg.mk (str "user")
          (instrAt sampleSession.placeholders sampleSession.placeholder_context_map 1))
        (submitAnswer (submitAnswer sampleSession (str "Alice") none)
          (str "Alice") (some (str "ok"))).api_history ≤ 1) := by
  decide

/-- C5 (amended): a failed collaborator invocation leaves the turn's
instruction in `api_history`, and a successful retry of the same answer
appends the identical instruction again: after one failure plus one
successful retry the transcript contains that instruction exactly twice
more than before (it is duplicated, not kept at most once). -/
theorem c5_retry_duplicates_instruction (s : Session) (a r : Str)
    (h : s.current_placeholder_index < s.placeholders.length) :
    countMsg
        (Msg.mk (str "user")
          (instrAt s.placeholders s.placeholder_context_map (s.current_placeholder_index + 1)))
        (submitAnswer (submitAnswer s a none) a (some r)).api_history
      = countMsg
          (Msg.mk (str "user")
            (instrAt s.placeholders s.placeholder_context_map (s.current_placeholder_index + 1)))
          s.api_history + 2 := by
  have h1 := submitAnswer_fail_fields s a h
  rw [h1]
  rw [submitAnswer_ok_fields _ a r (by simpa using h)]
  simp only [countMsg_append]
  rw [countMsg_single_self]
  rw [countMsg_single_ne _ (Msg.mk (str "assistant") r) (by
    intro hc
    have : str "assistant" = str "user" := congrArg Msg.role hc
    exact absurd this (by decide))]

/-- Witness for the amended C5 on `sampleSession`. -/
theorem c5_retry_duplicates_instruction_witness :
    countMsg
        (Msg.mk (str "user")
          (instrAt sampleSession.placeholders sampleSession.placeholder_context_map
            (sampleSession.current_placeholder_index + 1)))
        (submitAnswer (submitAnswer sampleSession (str "Alice") none)
          (str "Alice") (some (str "ok"))).api_history
      = countMsg
          (Msg.mk (str "user")
            (instrAt sampleSession.placeholders sampleSession.placeholder_context_map
              (sampleSession.current_placeholder_index + 1)))
          sampleSession.api_history + 2 :=
  c5_retry_duplicates_instruction sampleSession (str "Alice") (str "ok") (by decide)

/-! ## Claim C3: run-scoped replacement policy -/

/-- C3: `replace_placeholders_in_doc` replaces a token inside a run only if
the whole token text lies in that single run: (1) if no single run contains
the token, the paragraph is left completely unchanged (silent
non-replacement of run-spanning tokens); (2) the run structure is
preserved; (3) runs not containing the token are untouched; (4) within a
run, replacing the leftmost occurrence keeps all text outside the matched
token unchanged. -/
theorem c3_single_run_policy (k v : Str) (p : Para) :
    ((∀ r ∈ p, containsSub r k = false) → replaceInPara [(k, v)] p = p)
      ∧ (replaceInPara [(k, v)] p).length = p.length
      ∧ (∀ i, i < p.length → containsSub (p.getD i []) k = false →
          (replaceInPara [(k, v)] p).getD i [] = p.getD i [])
      ∧ (∀ a b : Str, k ≠ [] →
          (∀ j, j < a.length → occursAt (a ++ k ++ b) k j = false) →
          pyReplace (a ++ k ++ b) k v = a ++ v ++ pyReplace b k v) := by
  refine ⟨?_, ?_, ?_, ?_⟩
  · intro hall
    rw [replaceInPara_single, replaceOnce]
    cases hg : containsSub (paraText p) k with
    | true =>
      rw [if_pos rfl]
      refine map_id_of_mem _ p (fun r hr => ?_)
      rw [hall r hr, if_neg Bool.false_ne_true]
    | false => rw [if_neg Bool.false_ne_true]
  · rw [replaceInPara_single, replaceOnce]
    cases hg : containsSub (paraText p) k with
    | true => rw [if_pos rfl, List.length_map]
    | false => rw [if_neg Bool.false_ne_true]
  · intro i hi hr
    rw [replaceInPara_single, replaceOnce]
    cases hg : containsSub (paraText p) k with
    | true =>
      rw [if_pos rfl]
      have hgoal : (p.map (fun r => if containsSub r k = true then pyReplace r k v else r)).getD i []
          = (fun r => if containsSub r k = true then pyReplace r k v else r) (p.getD i []) := by
        rw [List.getD_eq_getElem?_getD, List.getElem?_map, List.getElem?_eq_getElem hi,
          List.getD_eq_getElem?_getD, List.getElem?_eq_getElem hi]
        rfl
      rw [hgoal]
      show (if containsSub (p.getD i []) k = true then pyReplace (p.getD i []) k v
        else p.getD i []) = p.getD i []
      rw [hr, if_neg Bool.false_ne_true]
    | false => rw [if_neg Bool.false_ne_true]
  · intro a b hk hocc
    rw [pyReplace, if_neg hk, pyReplace, if_neg hk]
    exact replAux_mid k v b hk a hocc

/-- Witness for C3: a token split across two runs (split as the runs holding the front and back halves of the token)
is silently not replaced, and a single-run occurrence replaces only the
matched token. -/
theorem c3_single_run_policy_witness :
    replaceInPara [(str "{ClientName}", str "Acme")] [['{'] ++ str "Client", str "Name" ++ ['}']]
        = [['{'] ++ str "Client", str "Name" ++ ['}']]
      ∧ pyReplace (str "Agreement of " ++ str "{X}" ++ str " today") (str "{X}") (str "Acme")
        = str "Agreement of " ++ str "Acme" ++ pyReplace (str " today") (str "{X}") (str "Acme") :=
  ⟨(c3_single_run_policy (str "{ClientName}") (str "Acme") [['{'] ++ str "Client", str "Name" ++ ['}']]).1
      (by decide),
   (c3_single_run_policy (str "{X}") (str "Acme") []).2.2.2 (str "Agreement of ") (str " today")
      (by decide) (by decide)⟩

/-! ## Claim C1: dedup in first-appearance order -/

/-- C1: for every document, the ordered placeholder list returned by
`extract_text_and_placeholders` has no duplicates, contains exactly the
tokens found in reading order, and lists them in strictly increasing order
of first appearance; on the spec's example text the scan yields
`["{A}", "{B}"]`. -/
theorem c1_scan_dedup_first_order :
    (∀ d : Doc,
      ((extract_text_and_placeholders d).2.1).Nodup
        ∧ (∀ x, x ∈ (extract_text_and_placeholders d).2.1 ↔ x ∈ rawTokens d)
        ∧ ((extract_text_and_placeholders d).2.1).Pairwise
            (fun a b => firstIdx a (rawTokens d) < firstIdx b (rawTokens d)))
      ∧ (extract_text_and_placeholders (Doc.mk [[str "{A} text {B} more {A}"]] [])).2.1
          = [str "{A}", str "{B}"] := by
  constructor
  · intro d
    refine ⟨nodup_dedupFirstAux (rawTokens d) [], ?_, pairwise_dedupFirstAux (rawTokens d) []⟩
    intro x
    have h := mem_dedupFirstAux (rawTokens d) [] x
    simpa using h
  · decide

/-! ## Claim C6: the preview transform is not idempotent -/

theorem foldl_fixed {α β : Type} (g : α → β → α) (a : α) : ∀ l : List β,
    (∀ x ∈ l, g a x = a) → l.foldl g a = a := by
  intro l
  induction l with
  | nil => intro _; rfl
  | cons x xs ih =>
    intro h
    rw [List.foldl_cons, h x (List.mem_cons_self _ _),
      ih (fun y hy => h y (List.mem_cons_of_mem _ hy))]

/-- C6 counterexample: with the single unfilled placeholder `{A}` and
original text `{A}`, one application yields the italicised token and a
second application wraps it again, so the transform applied to its own
output differs from a single application. -/
theorem c6_preview_not_idempotent :
    previewTransform [] [str "{A}"] (previewTransform [] [str "{A}"] (str "{A}"))
      ≠ previewTransform [] [str "{A}"] (str "{A}") := by
  decide

/-- C6 (amended): the preview transform is idempotent only on outputs in
which no placeholder token occurs any more — in particular when every
placeholder is filled and no emphasised value reintroduces a token.  An
unfilled placeholder (or a value containing a token) is re-wrapped by a
second application, so the transform is not idempotent in general. -/
theorem c6_preview_idempotent_when_tokens_gone
    (filled : List (Str × Str)) (phs : List Str) (t : Str)
    (h1 : ∀ kv ∈ filled, containsSub (previewTransform filled phs t) kv.1 = false)
    (h2 : ∀ ph ∈ phs, dictMem filled ph = false →
        containsSub (previewTransform filled phs t) ph = false) :
    previewTransform filled phs (previewTransform filled phs t)
      = previewTransform filled phs t := by
  show phs.foldl _ (filled.foldl _ (previewTransform filled phs t))
    = previewTransform filled phs t
  rw [foldl_fixed _ _ filled
    (fun kv hkv => pyReplace_not_contains _ _ _ (h1 kv hkv))]
  refine foldl_fixed _ _ phs (fun ph hp => ?_)
  cases hm : dictMem filled ph with
  | true => rw [if_pos rfl]
  | false =>
    rw [if_neg Bool.false_ne_true]
    exact pyReplace_not_contains _ _ _ (h2 ph hp hm)

/-- Witness for the amended C6: one filled placeholder whose value
introduces no token. -/
theorem c6_preview_idempotent_witness :
    previewTransform [(str "{A}", str "Bob")] [str "{A}"]
        (previewTransform [(str "{A}", str "Bob")] [str "{A}"] (str "x {A} y"))
      = previewTransform [(str "{A}", str "Bob")] [str "{A}"] (str "x {A} y") :=
  c6_preview_idempotent_when_tokens_gone [(str "{A}", str "Bob")] [str "{A}"] (str "x {A} y")
    (by decide) (by decide)

/-! ## Claim C7: pattern coverage -/

/-- C7: each of the six delimiter families plus bare `$identifier` is
recognised as a single whole token by the placeholder regex, both by raw
`re.findall` and through the scanner. -/
theorem c7_pattern_coverage :
    findTokens (str "{Name} {{Name}} [Date] <Sig> %Code% __Term__ $var")
        = [str "{Name}", str "{{Name}}", str "[Date]", str "<Sig>", str "%Code%",
            str "__Term__", str "$var"]
      ∧ (extract_text_and_placeholders
            (Doc.mk [[str "{Name} {{Name}} [Date] <Sig> %Code% __Term__ $var"]] [])).2.1
        = [str "{Name}", str "{{Name}}", str "[Date]", str "<Sig>", str "%Code%",
            str "__Term__", str "$var"] := by
  decide

/-! ## Claim C8: materialization does not touch the original -/

/-- C8: the download step computes the rendered document from the stored
original and the value map without modifying any session field (in
particular `original_doc_bytes` is unchanged); substitution maps the
paragraph structure of a fresh copy, preserving the paragraph count. -/
theorem c8_materialize_frame :
    ∀ s : Session,
      (materializeStep s).2 = s
        ∧ (materializeStep s).2.original_doc_bytes = s.original_doc_bytes
        ∧ (∀ d, s.original_doc_bytes = some d →
            (materializeStep s).1 = some (replace_placeholders_in_doc d s.filled_values))
        ∧ (∀ d reps, (replace_placeholders_in_doc d reps).body.length = d.body.length) := by
  intro s
  have hsnd : (materializeStep s).2 = s := by
    rw [materializeStep]
    cases s.original_doc_bytes <;> rfl
  refine ⟨hsnd, by rw [hsnd], ?_, ?_⟩
  · intro d hd
    rw [materializeStep, hd]
  · intro d reps
    rw [replace_placeholders_in_doc, List.length_map]

/-- Witness for C8 on `sampleSession`. -/
theorem c8_materialize_frame_witness :
    (materializeStep sampleSession).2 = sampleSession
      ∧ (materializeStep sampleSession).1
        = some (replace_placeholders_in_doc
            (Doc.mk [[str "x ", str "{A}", str " y ", str "{B}"]] [])
            sampleSession.filled_values) :=
  ⟨(c8_materialize_frame sampleSession).1,
   (c8_materialize_frame sampleSession).2.2.1 (Doc.mk [[str "x ", str "{A}", str " y ", str "{B}"]] []) rfl⟩

/-! ## Claim C10: sequential, not simultaneous substitution -/

/-- C10: substitution folds over the value map in insertion order, each
key rewriting the run texts already modified by earlier keys.  With
`{A} ↦ {B}` followed by `{B} ↦ two`, the document text `x {A} y {B}`
becomes `x two y two` (the substituted `{B}` is rewritten again), while
simultaneous substitution of both keys would give `x {B} y two` — the two
results differ. -/
theorem c10_sequential_not_simultaneous :
    replace_placeholders_in_doc (Doc.mk [[str "x {A} y {B}"]] [])
        [(str "{A}", str "{B}"), (str "{B}", str "two")]
      = Doc.mk [[str "x two y two"]] []
      ∧ simulReplace [(str "{A}", str "{B}"), (str "{B}", str "two")] (str "x {A} y {B}")
        = str "x {B} y two"
      ∧ (replace_placeholders_in_doc (Doc.mk [[str "x {A} y {B}"]] [])
            [(str "{A}", str "{B}"), (str "{B}", str "two")]).body
        ≠ [[simulReplace [(str "{A}", str "{B}"), (str "{B}", str "two")] (str "x {A} y {B}")]] := by
  decide

/-! ## Lemmas for round-trip scanning over clean text (claim C4) -/

theorem cleanChar_ne {c x : Char} (hc : cleanChar c = true)
    (hx : cleanChar x = false) : c ≠ x := by
  intro h
  rw [h, hx] at hc
  cases hc

theorem matchToken_clean (c : Char) (t : Str) (hc : cleanChar c = true) :
    matchToken (c :: t) = none := by
  have h1 : c ≠ '{' := cleanChar_ne hc (by decide)
  have h2 : c ≠ '[' := cleanChar_ne hc (by decide)
  have h3 : c ≠ '<' := cleanChar_ne hc (by decide)
  have h4 : c ≠ '%' := cleanChar_ne hc (by decide)
  have h5 : c ≠ '_' := cleanChar_ne hc (by decide)
  have h6 : c ≠ '$' := cleanChar_ne hc (by decide)
  simp [matchToken, matchCurly, matchDelim, matchUnder, matchDollar, h1, h2, h3, h4, h5, h6]

theorem findallAux_clean : ∀ (fuel : Nat) (s : Str), cleanStr s = true →
    findallAux fuel s = [] := by
  intro fuel
  induction fuel with
  | zero => intro s _; rfl
  | succ n ih =>
    intro s hs
    cases s with
    | nil => rfl
    | cons c rest =>
      obtain ⟨hc, hrest⟩ := by
        rw [cleanStr, List.all_cons, Bool.and_eq_true] at hs
        exact hs
      rw [findallAux, matchToken_clean c rest hc]
      exact ih rest hrest

theorem findallAux_clean_skip : ∀ (pre : Str), cleanStr pre = true →
    ∀ (fuel : Nat) (s : Str),
      findallAux (pre.length + fuel) (pre ++ s) = findallAux fuel s := by
  intro pre
  induction pre with
  | nil => intro _ fuel s; simp
  | cons c pre' ih =>
    intro hp fuel s
    obtain ⟨hc, hpre'⟩ := by
      rw [cleanStr, List.all_cons, Bool.and_eq_true] at hp
      exact hp
    have hlen : (c :: pre').length + fuel = (pre'.length + fuel) + 1 := by
      simp [Nat.succ_add]
    rw [hlen, List.cons_append, findallAux, matchToken_clean c _ hc]
    exact ih hpre' fuel s

theorem dotClose_clean (post : Str) (hpost : cleanStr post = true) :
    dotClose ('}' :: post) = some (['}'], post) := by
  cases post with
  | nil => rfl
  | cons p t =>
    obtain ⟨hp, _⟩ := by
      rw [cleanStr, List.all_cons, Bool.and_eq_true] at hpost
      exact hpost
    have hne : p ≠ '}' := cleanChar_ne hp (by decide)
    rw [dotClose, if_pos rfl]
    rw [if_neg hne]

theorem matchToken_tokenX (post : Str) (hpost : cleanStr post = true) :
    matchToken ('{' :: 'X' :: '}' :: post) = some (str "{X}", post) := by
  have hd : dotClose ('X' :: '}' :: post) = some (['X', '}'], post) := by
    rw [dotClose, if_neg (by decide), if_neg (by decide), dotClose_clean post hpost]
  simp [matchToken, matchCurly, hd, str]

theorem clean_not_contains (s : Str) (hs : cleanStr s = true) (t : Str) :
    containsSub s ('{' :: t) = false := by
  induction s with
  | nil => rfl
  | cons c rest ih =>
    obtain ⟨hc, hrest⟩ := by
      rw [cleanStr, List.all_cons, Bool.and_eq_true] at hs
      exact hs
    have hne : ('{' : Char) ≠ c := fun h => (cleanChar_ne hc (by decide)) h.symm
    rw [containsSub, isPrefixL]
    rw [decide_eq_false hne]
    simp only [Bool.false_and, Bool.false_or]
    exact ih hrest

theorem cleanStr_append (a b : Str) : cleanStr (a ++ b) = (cleanStr a && cleanStr b) := by
  simp [cleanStr, List.all_append]

theorem paraText_triple (a b c : Str) : paraText [a, b, c] = a ++ (b ++ c) := by
  simp [paraText]

theorem intercalate_single (x : Str) : List.intercalate ['\n'] [x] = x := by
  simp [List.intercalate]

theorem findTokens_pre_X_post (pre post : Str)
    (hpre : cleanStr pre = true) (hpost : cleanStr post = true) :
    findTokens (pre ++ (str "{X}" ++ post)) = [str "{X}"] := by
  rw [findTokens]
  have hlen : (pre ++ (str "{X}" ++ post)).length = pre.length + (3 + post.length) := by
    simp [str]
    omega
  rw [hlen, findallAux_clean_skip pre hpre (3 + post.length) (str "{X}" ++ post)]
  have h3 : 3 + post.length = (2 + post.length) + 1 := by omega
  rw [h3]
  show findallAux ((2 + post.length) + 1) ('{' :: 'X' :: '}' :: post) = [str "{X}"]
  rw [findallAux, matchToken_tokenX post hpost]
  show str "{X}" :: findallAux (2 + post.length) post = [str "{X}"]
  rw [findallAux_clean (2 + post.length) post hpost]

/-! ## Claim C4: round-trip substitution -/

/-- C4: for any document whose single paragraph is `pre ++ "{X}" ++ post`
with `{X}` alone in one run and `pre`, `post` free of delimiter
characters, the scan finds exactly `["{X}"]`; rendering with
`{"{X}": "Acme"}` yields a document whose flattened text contains
`"Acme"` and no longer contains `"{X}"`, and re-scanning the rendered
document yields an empty placeholder list. -/
theorem c4_round_trip (pre post : Str)
    (hpre : cleanStr pre = true) (hpost : cleanStr post = true) :
    (extract_text_and_placeholders (Doc.mk [[pre, str "{X}", post]] [])).2.1 = [str "{X}"]
      ∧ containsSub
          (fullTextStr (replace_placeholders_in_doc (Doc.mk [[pre, str "{X}", post]] [])
            [(str "{X}", str "Acme")]))
          (str "Acme") = true
      ∧ containsSub
          (fullTextStr (replace_placeholders_in_doc (Doc.mk [[pre, str "{X}", post]] [])
            [(str "{X}", str "Acme")]))
          (str "{X}") = false
      ∧ (extract_text_and_placeholders (replace_placeholders_in_doc
            (Doc.mk [[pre, str "{X}", post]] []) [(str "{X}", str "Acme")])).2.1 = [] := by
  have hparaA : paraText [pre, str "{X}", post] = pre ++ (str "{X}" ++ post) :=
    paraText_triple pre (str "{X}") post
  have hrawA : rawTokens (Doc.mk [[pre, str "{X}", post]] []) = [str "{X}"] := by
    show findTokens (paraText [pre, str "{X}", post]) ++ [] = [str "{X}"]
    rw [List.append_nil, hparaA, findTokens_pre_X_post pre post hpre hpost]
  have hncpre : containsSub pre (str "{X}") = false :=
    clean_not_contains pre hpre ['X', '}']
  have hncpost : containsSub post (str "{X}") = false :=
    clean_not_contains post hpost ['X', '}']
  have hpara : replaceInPara [(str "{X}", str "Acme")] [pre, str "{X}", post]
      = [pre, str "Acme", post] := by
    rw [replaceInPara_single, replaceOnce]
    have hguard : containsSub (paraText [pre, str "{X}", post]) (str "{X}") = true := by
      rw [hparaA, ← List.append_assoc]
      exact containsSub_mid (str "{X}") pre post
    rw [if_pos hguard]
    rw [List.map_cons, List.map_cons, List.map_cons, List.map_nil]
    rw [hncpre, if_neg Bool.false_ne_true]
    rw [hncpost, if_neg Bool.false_ne_true]
    have hmid : (if containsSub (str "{X}") (str "{X}") = true
        then pyReplace (str "{X}") (str "{X}") (str "Acme") else str "{X}") = str "Acme" := by
      decide
    rw [hmid]
  have hB : replace_placeholders_in_doc (Doc.mk [[pre, str "{X}", post]] [])
      [(str "{X}", str "Acme")] = Doc.mk [[pre, str "Acme", post]] [] := by
    rw [replace_placeholders_in_doc]
    simp only [List.map_cons, List.map_nil, hpara]
  have hfull : fullTextStr (Doc.mk [[pre, str "Acme", post]] [])
      = pre ++ (str "Acme" ++ post) := by
    rw [fullTextStr]
    have hap : allParas (Doc.mk [[pre, str "Acme", post]] [])
        = [[pre, str "Acme", post]] := by
      simp [allParas]
    rw [hap, List.map_cons, List.map_nil, intercalate_single, paraText_triple]
  have hcleanAll : cleanStr (pre ++ (str "Acme" ++ post)) = true := by
    rw [cleanStr_append, cleanStr_append, hpre, hpost]
    rw [(by decide : cleanStr (str "Acme") = true)]
    rfl
  refine ⟨?_, ?_, ?_, ?_⟩
  · show dedupFirst (rawTokens (Doc.mk [[pre, str "{X}", post]] [])) = [str "{X}"]
    rw [hrawA]
    rfl
  · rw [hB, hfull, ← List.append_assoc]
    exact containsSub_mid (str "Acme") pre post
  · rw [hB, hfull]
    exact clean_not_contains _ hcleanAll ['X', '}']
  · rw [hB]
    show dedupFirst (rawTokens (Doc.mk [[pre, str "Acme", post]] [])) = []
    have hrawB : rawTokens (Doc.mk [[pre, str "Acme", post]] []) = [] := by
      show findTokens (paraText [pre, str "Acme", post]) ++ [] = []
      rw [List.append_nil, paraText_triple, findTokens]
      exact findallAux_clean _ _ hcleanAll
    rw [hrawB]
    rfl

/-- Witness for C4 with concrete surrounding text. -/
theorem c4_round_trip_witness :
    (extract_text_and_placeholders
        (Doc.mk [[str "Agreement between ", str "{X}", str " and ACME Corp."]] [])).2.1
        = [str "{X}"]
      ∧ containsSub
          (fullTextStr (replace_placeholders_in_doc
            (Doc.mk [[str "Agreement between ", str "{X}", str " and ACME Corp."]] [])
            [(str "{X}", str "Acme")]))
          (str "Acme") = true
      ∧ containsSub
          (fullTextStr (replace_placeholders_in_doc
            (Doc.mk [[str "Agreement between ", str "{X}", str " and ACME Corp."]] [])
            [(str "{X}", str "Acme")]))
          (str "{X}") = false
      ∧ (extract_text_and_placeholders (replace_placeholders_in_doc
            (Doc.mk [[str "Agreement between ", str "{X}", str " and ACME Corp."]] [])
            [(str "{X}", str "Acme")])).2.1 = [] :=
  c4_round_trip (str "Agreement between ") (str " and ACME Corp.") (by decide) (by decide)
